/-
Verification of the causaliq-pipeline workflow engine.

This file embeds the core of `src/causaliq_workflow/workflow.py` as Lean
definitions and proves the specified properties about them:

  * template-variable extraction (`_extract_template_variables`, the regex
    scan for two-brace placeholders),
  * recursive collection of used variables (`_collect_template_variables`),
  * template validation (`_validate_template_variables`),
  * matrix expansion (`expand_matrix`, the cartesian product of value lists),
  * workflow parsing (`parse_workflow`, with its collaborators modelled as
    parameters),
  * the `TaskStatus` outcome taxonomy (modelled from the spec, since
    `status.py` is not part of the provided sources; its unit tests are).

Python dictionaries are embedded as association lists in insertion order
(Python dict keys are unique and iteration follows insertion order), Python
sets as `Finset String`, raised exceptions as `Except` error results.
Leading underscores of Python method names are dropped (`_extract_template_variables`
becomes `extract_template_variables`, and so on), since such names read as
placeholders in Lean.
-/
import Mathlib

namespace CIQ

/-! ### Characters of template identifiers

The regex in `_extract_template_variables` is
`r"\{\{([a-zA-Z_][a-zA-Z0-9_-]*)\}\}"`. Its character classes: -/

/-- First character of a placeholder identifier: `[a-zA-Z_]`. -/
def isIdentStart (c : Char) : Bool := c.isAlpha || c = '_'

/-- Later characters of a placeholder identifier: `[a-zA-Z0-9_-]`. -/
def isIdentCont (c : Char) : Bool := c.isAlphanum || c = '_' || c = '-'

/-- A valid placeholder identifier: a letter or underscore followed by
letters/digits/underscore/hyphen (non-empty). -/
def validIdent : List Char → Bool
  | [] => false
  | c :: cs => isIdentStart c && cs.all isIdentCont

/-- The two-brace delimited placeholder text for identifier `v`:
the characters of `\x7b\x7bv\x7d\x7d`. -/
def phL (v : List Char) : List Char := '\x7b' :: '\x7b' :: (v ++ ['\x7d', '\x7d'])

/-- One attempted regex match at the current position: succeeds when the text
starts with two opening braces, an identifier-start character, a maximal run
of identifier-continuation characters, and two closing braces; returns the
identifier and the rest of the text after the match.  This is exactly when
Python's regex engine matches `\{\{([a-zA-Z_][a-zA-Z0-9_-]*)\}\}` anchored at
the current position (no backtracking is possible since braces are not
identifier characters). -/
def matchAt : List Char → Option (List Char × List Char)
  | '\x7b' :: '\x7b' :: c :: rest =>
    if isIdentStart c then
      match rest.dropWhile isIdentCont with
      | '\x7d' :: '\x7d' :: tail => some (c :: rest.takeWhile isIdentCont, tail)
      | _ => none
    else none
  | _ => none

/-- Left-to-right non-overlapping scan, as performed by `re.findall`: try a
match at the current position; on success emit it and continue after the
matched text, on failure advance one character.  The `fuel` argument (always
instantiated with the text length, which bounds the number of steps) makes the
recursion structural. -/
def scanGo : Nat → List Char → List (List Char)
  | 0, _ => []
  | fuel + 1, l =>
    match matchAt l with
    | some (v, tail) => v :: scanGo fuel tail
    | none =>
      match l with
      | [] => []
      | _ :: rest => scanGo fuel rest

/-- All identifiers matched by `re.findall` on the given text, in order. -/
def scanVars (l : List Char) : List (List Char) := scanGo l.length l

/-! ### Documents

Workflow documents are YAML-derived Python values: strings, numbers,
booleans, lists and string-keyed dictionaries.  Dictionaries are embedded as
association lists in insertion order (Python dict keys are unique). -/

/-- A Python value as loaded from a workflow YAML file. -/
inductive Doc where
  | str (s : String)
  | num (n : Int)
  | bool (b : Bool)
  | arr (items : List Doc)
  | dict (entries : List (String × Doc))

/-- Embeds `WorkflowExecutor._extract_template_variables` (the leading
underscore is dropped): on a string, the set of identifiers found by
`re.findall(r"\{\{([a-zA-Z_][a-zA-Z0-9_-]*)\}\}", text)`; on any non-string
input, the empty set (the `isinstance(text, str)` guard). -/
def extract_template_variables (text : Doc) : Finset String :=
  match text with
  | .str s => ((scanVars s.data).map String.mk).toFinset
  | _ => ∅

mutual

/-- Embeds `WorkflowExecutor._collect_template_variables`: recursively walk
the document — dictionaries by value, lists by element — and union the
variables extracted from every string leaf.  (The Python version accumulates
into a mutable set; the union of the extracted sets is the same set.) -/
def collect_template_variables : Doc → Finset String
  | .dict entries => collectDictValues entries
  | .arr items => collectArrItems items
  | .str s => extract_template_variables (.str s)
  | .num _ => ∅
  | .bool _ => ∅

def collectArrItems : List Doc → Finset String
  | [] => ∅
  | x :: xs => collect_template_variables x ∪ collectArrItems xs

def collectDictValues : List (String × Doc) → Finset String
  | [] => ∅
  | (_, v) :: rest => collect_template_variables v ∪ collectDictValues rest

end

/-- Python dictionary lookup `wf[k]` / membership `k in wf` on the
association-list embedding (keys are unique in a Python dict, so first
match is the match). -/
def lookupDoc (k : String) : List (String × Doc) → Option Doc
  | [] => none
  | (k2, v) :: rest => if k2 = k then some v else lookupDoc k rest

/-- The matrix variable names of a workflow: `workflow["matrix"].keys()` when
the key `"matrix"` is present.  Structural validation (a collaborator outside
this core) guarantees that the `matrix` entry, when present, is a mapping. -/
def matrixKeys (wf : List (String × Doc)) : Finset String :=
  match lookupDoc "matrix" wf with
  | some (.dict entries) => (entries.map Prod.fst).toFinset
  | _ => ∅

/-- The available template context of a workflow:
`{"id", "description"}` plus the matrix variable names when a matrix is
present (`_validate_template_variables`, lines 128-133). -/
def available_variables (wf : List (String × Doc)) : Finset String :=
  {"id", "description"} ∪ matrixKeys wf

/-- The template variables used anywhere in the workflow document
(`_validate_template_variables`, lines 135-137). -/
def used_variables (wf : List (String × Doc)) : Finset String :=
  collectDictValues wf

/-! ### Sorting

Python's `sorted` on strings is ascending lexicographic comparison of code
points.  The core `String` order of Lean does not reduce in the kernel, so we
implement the comparison directly on character lists and relate it to the
standard lexicographic order `List.Lex (· < ·)` later. -/

/-- Lexicographic code-point comparison of character lists (`a <= b` of
Python strings). -/
def lexLe : List Char → List Char → Bool
  | [], _ => true
  | _ :: _, [] => false
  | a :: as, b :: bs => if a < b then true else if a = b then lexLe as bs else false

/-- Python string comparison `a <= b`. -/
def strLe (a b : String) : Bool := lexLe a.data b.data

/-- Insert a string into a sorted list of strings. -/
def insertSorted (x : String) : List String → List String
  | [] => [x]
  | y :: ys => if strLe x y then x :: y :: ys else y :: insertSorted x ys

/-- Insertion sort by `strLe`: `sorted` of Python on a list of strings. -/
def sortStrings : List String → List String
  | [] => []
  | x :: xs => insertSorted x (sortStrings xs)

/-! The next few lemmas are needed to lift `sortStrings` to finite sets
(sorting is invariant under permutation of the input, because `strLe` is a
total antisymmetric order and a sorted list is determined by its multiset of
elements). -/

lemma lexLe_total (a b : List Char) : lexLe a b = true ∨ lexLe b a = true := by
  induction a generalizing b with
  | nil => left; rfl
  | cons x xs ih =>
    cases b with
    | nil => right; rfl
    | cons y ys =>
      rcases lt_trichotomy x y with h | h | h
      · left; simp [lexLe, h]
      · subst h
        rcases ih ys with h2 | h2
        · left; simp [lexLe, h2, lt_irrefl]
        · right; simp [lexLe, h2, lt_irrefl]
      · right; simp [lexLe, h]

lemma lexLe_antisymm (a b : List Char) (hab : lexLe a b = true)
    (hba : lexLe b a = true) : a = b := by
  induction a generalizing b with
  | nil =>
    cases b with
    | nil => rfl
    | cons y ys => simp [lexLe] at hba
  | cons x xs ih =>
    cases b with
    | nil => simp [lexLe] at hab
    | cons y ys =>
      rcases lt_trichotomy x y with h | h | h
      · rw [lexLe] at hba
        simp [h.not_lt, (ne_of_lt h).symm] at hba
      · subst h
        rw [lexLe] at hab hba
        simp [lt_irrefl] at hab hba
        rw [ih ys hab hba]
      · rw [lexLe] at hab
        simp [h.not_lt, (ne_of_lt h).symm] at hab

lemma strLe_total (a b : String) : strLe a b = true ∨ strLe b a = true :=
  lexLe_total a.data b.data

lemma strLe_antisymm (a b : String) (hab : strLe a b = true)
    (hba : strLe b a = true) : a = b := by
  cases a; cases b
  exact congrArg String.mk (lexLe_antisymm _ _ hab hba)

lemma mem_insertSorted (a x : String) (l : List String) :
    a ∈ insertSorted x l ↔ a = x ∨ a ∈ l := by
  induction l with
  | nil => simp [insertSorted]
  | cons y ys ih =>
    rw [insertSorted]
    split
    · simp
    · simp [ih]
      tauto

lemma perm_insertSorted (x : String) (l : List String) :
    List.Perm (insertSorted x l) (x :: l) := by
  induction l with
  | nil => rfl
  | cons y ys ih =>
    rw [insertSorted]
    split
    · rfl
    · exact (ih.cons y).trans (List.Perm.swap x y ys)

lemma perm_sortStrings (l : List String) : List.Perm (sortStrings l) l := by
  induction l with
  | nil => rfl
  | cons x xs ih =>
    exact (perm_insertSorted x (sortStrings xs)).trans (ih.cons x)

lemma lexLe_trans (a b c : List Char) (hab : lexLe a b = true)
    (hbc : lexLe b c = true) : lexLe a c = true := by
  induction a generalizing b c with
  | nil => rfl
  | cons x xs ih =>
    cases b with
    | nil => simp [lexLe] at hab
    | cons y ys =>
      cases c with
      | nil => simp [lexLe] at hbc
      | cons z zs =>
        rw [lexLe] at hab hbc ⊢
        split at hab
        · rename_i hxy
          split at hbc
          · rename_i hyz
            simp [lt_trans hxy hyz]
          · split at hbc
            · rename_i hyz
              simp [hyz ▸ hxy]
            · exact absurd hbc (by simp)
        · split at hab
          · rename_i hxy
            subst hxy
            split at hbc
            · rename_i hyz
              simp [hyz]
            · split at hbc
              · rename_i hyz
                subst hyz
                simp [lt_irrefl, ih ys zs hab hbc]
              · exact absurd hbc (by simp)
          · exact absurd hab (by simp)

lemma strLe_trans (a b c : String) (hab : strLe a b = true)
    (hbc : strLe b c = true) : strLe a c = true :=
  lexLe_trans a.data b.data c.data hab hbc

lemma sorted_insertSorted (x : String) (l : List String)
    (h : l.Sorted (fun a b => strLe a b = true)) :
    (insertSorted x l).Sorted (fun a b => strLe a b = true) := by
  induction l with
  | nil => simp [insertSorted]
  | cons y ys ih =>
    rw [List.sorted_cons] at h
    rw [insertSorted]
    split
    · rename_i hxy
      rw [List.sorted_cons]
      refine ⟨?_, List.sorted_cons.mpr h⟩
      intro b hb
      rcases List.mem_cons.mp hb with hb | hb
      · exact hb ▸ hxy
      · exact strLe_trans x y b hxy (h.1 b hb)
    · rename_i hxy
      rw [List.sorted_cons]
      refine ⟨?_, ih h.2⟩
      intro b hb
      rcases (mem_insertSorted b x ys).mp hb with hb | hb
      · subst hb
        rcases strLe_total b y with h2 | h2
        · exact absurd h2 hxy
        · exact h2
      · exact h.1 b hb

lemma sorted_sortStrings (l : List String) :
    (sortStrings l).Sorted (fun a b => strLe a b = true) := by
  induction l with
  | nil => simp [sortStrings]
  | cons x xs ih => exact sorted_insertSorted x (sortStrings xs) ih

lemma sortStrings_eq_of_perm (l₁ l₂ : List String) (h : List.Perm l₁ l₂) :
    sortStrings l₁ = sortStrings l₂ :=
  @List.eq_of_perm_of_sorted String (fun a b => strLe a b = true)
    ⟨fun a b hab hba => strLe_antisymm a b hab hba⟩ _ _
    (((perm_sortStrings l₁).trans h).trans (perm_sortStrings l₂).symm)
    (sorted_sortStrings l₁) (sorted_sortStrings l₂)

/-- Python's `sorted` applied to a set of strings: the ascending list of its
elements (well-defined by `sortStrings_eq_of_perm`). -/
def sortedStrings (s : Finset String) : List String :=
  Quot.liftOn s.val sortStrings sortStrings_eq_of_perm

/-- A single-quote character (code point 39), used by Python's list `repr`. -/
def squote : String := String.singleton (Char.ofNat 39)

/-- Python's `str` of a list of strings: `['a', 'b']`. -/
def pyListRepr (xs : List String) : String :=
  "[" ++ String.intercalate ", " (xs.map (fun s => squote ++ s ++ squote)) ++ "]"

/-- The message of the error raised by `_validate_template_variables`:
`f"Unknown template variables: {unknown_list}. Available variables: {available_list}"`. -/
def mkUnknownMessage (unknown available : List String) : String :=
  "Unknown template variables: " ++ pyListRepr unknown ++
    ". Available variables: " ++ pyListRepr available

/-- Embeds `WorkflowExecutor._validate_template_variables` (leading
underscore dropped): build the available context, collect the used variables,
and raise `WorkflowExecutionError` naming the sorted unknown and available
lists exactly when some used variable is not available.  A raised exception
is embedded as `Except.error` carrying the message. -/
def validate_template_variables (wf : List (String × Doc)) : Except String Unit :=
  let unknown := used_variables wf \ available_variables wf
  if unknown = ∅ then Except.ok ()
  else Except.error
    (mkUnknownMessage (sortedStrings unknown) (sortedStrings (available_variables wf)))

/-! ### Matrix expansion -/

/-- `itertools.product` on a list of value lists: all combinations, the
last list varying fastest. -/
def productL {α : Type} : List (List α) → List (List α)
  | [] => [[]]
  | vs :: rest => vs.flatMap (fun v => (productL rest).map (fun c => v :: c))

/-- Embeds `WorkflowExecutor.expand_matrix` (lines 59-98): an empty matrix
yields the single empty job; otherwise every combination of the cartesian
product of the value lists becomes a job `dict(zip(variables, combination))`,
embedded as the association list zipping the variable names (in declared
order) with the combination. -/
def expand_matrix {α : Type} (matrix : List (String × List α)) :
    List (List (String × α)) :=
  if matrix.isEmpty then [[]]
  else (productL (matrix.map Prod.snd)).map
    (fun combination => (matrix.map Prod.fst).zip combination)

/-! ### Errors and workflow parsing -/

/-- The two exception types raised by `workflow.py`:
`WorkflowValidationError` (from the schema collaborator) and
`WorkflowExecutionError`. -/
inductive PyErr where
  | validationError (msg : String)
  | executionError (msg : String)
deriving DecidableEq

/-- The `try`/`except` of `expand_matrix` (lines 79-98), with the internal
product generation left as a parameter so that an internal fault (for
example, the monkeypatched `itertools.product` of the unit tests) can be
modelled: any exception `e` from product generation is re-raised as
`WorkflowExecutionError(f"Matrix expansion failed: {e}")`. -/
def expand_matrix_with {α : Type}
    (product : List (List α) → Except String (List (List α)))
    (matrix : List (String × List α)) : Except PyErr (List (List (String × α))) :=
  if matrix.isEmpty then .ok [[]]
  else
    match product (matrix.map Prod.snd) with
    | .error e => .error (.executionError ("Matrix expansion failed: " ++ e))
    | .ok combos => .ok (combos.map
        (fun combination => (matrix.map Prod.fst).zip combination))

/-- Embeds `WorkflowExecutor.parse_workflow` (lines 35-57).  Its two
collaborators are parameters: `loadResult` stands for
`load_workflow_file(workflow_path)` (either the loaded document or a raised
`WorkflowValidationError` with the given message) and `validateResult` for
`validate_workflow` (either success or a raised `WorkflowValidationError`).
The body then calls `_validate_template_variables` and returns the workflow;
a `WorkflowValidationError` from the collaborators is caught and re-raised
as `WorkflowExecutionError(f"Workflow validation failed: {e}")`, while an
error from template validation is already a `WorkflowExecutionError` and
propagates unwrapped.  Note the source performs no further validation:
in particular, it never consults any action registry. -/
def parse_workflow (loadResult : Except String (List (String × Doc)))
    (validateResult : List (String × Doc) → Except String Unit) :
    Except PyErr (List (String × Doc)) :=
  match loadResult with
  | .error msg => .error (.executionError ("Workflow validation failed: " ++ msg))
  | .ok wf =>
    match validateResult wf with
    | .error msg => .error (.executionError ("Workflow validation failed: " ++ msg))
    | .ok _ =>
      match validate_template_variables wf with
      | .error msg => .error (.executionError msg)
      | .ok _ => .ok wf

/-! ### TaskStatus -/

/-- Modelled from the spec: the `TaskStatus` enumeration of `status.py`
(the module itself is not in the provided sources; its unit tests are).
"a closed enumeration of exactly ten outcomes, partitioned into three
disjoint tags — execution-mode (`EXECUTES`, `WOULD_EXECUTE`, `SKIPS`,
`WOULD_SKIP`), comparison-mode (`IDENTICAL`, `DIFFERENT`), error
(`INVALID_USES`, `INVALID_PARAMETER`, `FAILED`, `TIMED_OUT`)". -/
inductive TaskStatus where
  | EXECUTES
  | WOULD_EXECUTE
  | SKIPS
  | WOULD_SKIP
  | IDENTICAL
  | DIFFERENT
  | INVALID_USES
  | INVALID_PARAMETER
  | FAILED
  | TIMED_OUT
deriving DecidableEq, Fintype

/-- Modelled from the spec: "`is_success` = member of {EXECUTES,
WOULD_EXECUTE, SKIPS, WOULD_SKIP, IDENTICAL, DIFFERENT}". -/
def is_success : TaskStatus → Bool
  | .EXECUTES | .WOULD_EXECUTE | .SKIPS | .WOULD_SKIP | .IDENTICAL | .DIFFERENT => true
  | _ => false

/-- Modelled from the spec: "`is_error` = the complement within the ten
values", listed in the spec's error tag as {INVALID_USES, INVALID_PARAMETER,
FAILED, TIMED_OUT}. -/
def is_error : TaskStatus → Bool
  | .INVALID_USES | .INVALID_PARAMETER | .FAILED | .TIMED_OUT => true
  | _ => false

/-- Modelled from the spec: "`is_execution` = member of {EXECUTES, IDENTICAL,
DIFFERENT} (outcomes where an action actually ran)". -/
def is_execution : TaskStatus → Bool
  | .EXECUTES | .IDENTICAL | .DIFFERENT => true
  | _ => false

/-- Modelled from the spec: "`is_dry_run` = member of {WOULD_EXECUTE,
WOULD_SKIP}". -/
def is_dry_run : TaskStatus → Bool
  | .WOULD_EXECUTE | .WOULD_SKIP => true
  | _ => false

/-! ### Concrete documents used by the scenario claims -/

/-- The workflow of the spec's template-validation scenario: matrix
`matrix:\x7bdataset:["asia"]\x7d` and a step template
`/results/\x7b\x7bunknown_var\x7d\x7d/\x7b\x7bdataset\x7d\x7d.xml`. -/
def scenarioWorkflow : List (String × Doc) :=
  [("id", .str "test-workflow"),
   ("description", .str "Test workflow"),
   ("matrix", .dict [("dataset", .arr [.str "asia"])]),
   ("steps", .arr [.dict
     [("uses", .str "action"),
      ("with", .dict
        [("result", .str "/results/\x7b\x7bunknown_var\x7d\x7d/\x7b\x7bdataset\x7d\x7d.xml")])]])]

/-- A structurally valid workflow whose single step `uses` an action name
that no registry could resolve. -/
def unknownActionWorkflow : List (String × Doc) :=
  [("id", .str "w"),
   ("description", .str "d"),
   ("steps", .arr [.dict [("uses", .str "no_such_action_anywhere")]])]

/-! ### Facts about the cartesian product -/

lemma productL_length {α : Type} (ls : List (List α)) :
    (productL ls).length = (ls.map List.length).prod := by
  induction ls with
  | nil => rfl
  | cons vs rest ih =>
    rw [productL, List.length_flatMap]
    simp only [Function.comp_def, List.length_map]
    rw [List.map_const', List.sum_replicate, smul_eq_mul, ih]
    simp [List.prod_cons]

lemma length_of_mem_productL {α : Type} (ls : List (List α)) (c : List α)
    (hc : c ∈ productL ls) : c.length = ls.length := by
  induction ls generalizing c with
  | nil =>
    rw [productL, List.mem_singleton] at hc
    simp [hc]
  | cons vs rest ih =>
    rw [productL, List.mem_flatMap] at hc
    obtain ⟨v, _, hc⟩ := hc
    rw [List.mem_map] at hc
    obtain ⟨c2, hc2, rfl⟩ := hc
    simp [ih c2 hc2]

lemma productL_head {α : Type} [Inhabited α] (ls : List (List α))
    (h : ∀ l ∈ ls, l ≠ []) :
    (productL ls).head? = some (ls.map List.headI) := by
  induction ls with
  | nil => rfl
  | cons vs rest ih =>
    have hvs : vs ≠ [] := h vs (List.mem_cons_self vs rest)
    obtain ⟨v, vs2, rfl⟩ := List.exists_cons_of_ne_nil hvs
    have hrest := ih (fun l hl => h l (List.mem_cons_of_mem _ hl))
    rcases hpr : productL rest with _ | ⟨c0, cs0⟩
    · rw [hpr] at hrest; exact absurd hrest (by simp)
    · rw [hpr] at hrest
      simp only [List.head?_cons, Option.some_inj] at hrest
      rw [productL, List.flatMap_cons, hpr]
      simp [hrest]

lemma flatMap_pure_map {α β : Type} (g : α → β) (l : List α) :
    (l.flatMap fun x => [g x]) = l.map g := by
  induction l with
  | nil => rfl
  | cons x xs ih => simp [ih]

lemma productL_eq_nil_of_mem_nil {α : Type} (ls : List (List α))
    (h : [] ∈ ls) : productL ls = [] := by
  induction ls with
  | nil => exact absurd h (List.not_mem_nil _)
  | cons vs rest ih =>
    rcases List.mem_cons.mp h with h | h
    · rw [productL, ← h]; rfl
    · rw [productL, ih h]
      simp

/-! ### Facts about the placeholder scanner

`scanVars` (the embedding of `re.findall` for the placeholder pattern) is
characterised below: the identifiers it finds are exactly the valid
identifiers that occur in the text delimited by double braces.  The key
observations are that a match at a position is determined by the text
(`matchAt_some_shape`, `matchAt_phL`) and that two placeholder occurrences
cannot overlap, so the scan misses none (`matchAt_occurrence_after`). -/

lemma dropWhile_all_append (p : Char → Bool) (xs : List Char) (y : Char)
    (ys : List Char) (hall : xs.all p = true) (hy : p y = false) :
    (xs ++ y :: ys).dropWhile p = y :: ys := by
  induction xs with
  | nil => simp [List.dropWhile_cons, hy]
  | cons x xs ih =>
    rw [List.all_cons, Bool.and_eq_true] at hall
    simp [List.dropWhile_cons, hall.1, ih hall.2]

lemma takeWhile_all_append (p : Char → Bool) (xs : List Char) (y : Char)
    (ys : List Char) (hall : xs.all p = true) (hy : p y = false) :
    (xs ++ y :: ys).takeWhile p = xs := by
  induction xs with
  | nil => simp [List.takeWhile_cons, hy]
  | cons x xs ih =>
    rw [List.all_cons, Bool.and_eq_true] at hall
    simp [List.takeWhile_cons, hall.1, ih hall.2]

lemma matchAt_some_shape (l v tail : List Char) (h : matchAt l = some (v, tail)) :
    validIdent v = true ∧ l = phL v ++ tail := by
  unfold matchAt at h
  split at h
  · rename_i c rest
    split at h
    · rename_i hstart
      split at h
      · rename_i tail2 hdrop
        injection h with h
        injection h with h1 h2
        subst h1; subst h2
        constructor
        · simp only [validIdent, hstart, Bool.true_and, List.all_eq_true]
          intro x hx
          exact List.mem_takeWhile_imp hx
        · simp only [phL, List.cons_append, List.append_assoc, List.cons.injEq,
            true_and]
          conv_lhs => rw [← List.takeWhile_append_dropWhile (p := isIdentCont) (l := rest)]
          rw [hdrop]
          simp
      · exact absurd h (by simp)
    · exact absurd h (by simp)
  · exact absurd h (by simp)

lemma matchAt_phL (v q : List Char) (hv : validIdent v = true) :
    matchAt (phL v ++ q) = some (v, q) := by
  match v with
  | [] => exact absurd hv (by simp [validIdent])
  | c :: cs =>
    rw [validIdent, Bool.and_eq_true] at hv
    have hshape : phL (c :: cs) ++ q =
        '\x7b' :: '\x7b' :: c :: (cs ++ '\x7d' :: '\x7d' :: q) := by
      simp [phL]
    rw [hshape, matchAt, if_pos hv.1]
    rw [dropWhile_all_append isIdentCont cs '\x7d' ('\x7d' :: q) hv.2 (by decide)]
    rw [takeWhile_all_append isIdentCont cs '\x7d' ('\x7d' :: q) hv.2 (by decide)]
    rfl

lemma identChar_ne_obrace (w0 : Char) (ws : List Char)
    (hw0 : isIdentStart w0 = true) (hwall : ws.all isIdentCont = true)
    (h : '\x7b' ∈ w0 :: (ws ++ ['\x7d', '\x7d'])) : False := by
  rcases List.mem_cons.mp h with h | h
  · rw [← h] at hw0
    exact absurd hw0 (by decide)
  · rcases List.mem_append.mp h with h | h
    · have := (List.all_eq_true.mp hwall) _ h
      exact absurd this (by decide)
    · simp at h

lemma matchAt_occurrence_after (l w tail p v q : List Char)
    (h : matchAt l = some (w, tail)) (hv : validIdent v = true)
    (hl : l = p ++ (phL v ++ q)) (hp : p ≠ []) :
    ∃ p2, p = phL w ++ p2 ∧ tail = p2 ++ (phL v ++ q) := by
  obtain ⟨hw, hshape⟩ := matchAt_some_shape l w tail h
  have heq : p ++ (phL v ++ q) = phL w ++ tail := by rw [← hl, hshape]
  rcases List.append_eq_append_iff.mp heq with ⟨r, hr1, hr2⟩ | ⟨p2, hp2, ht⟩
  · obtain ⟨v0, vs, rfl⟩ : ∃ v0 vs, v = v0 :: vs := by
      cases v with
      | nil => exact absurd hv (by simp [validIdent])
      | cons a b => exact ⟨a, b, rfl⟩
    obtain ⟨w0, ws, rfl⟩ : ∃ w0 ws, w = w0 :: ws := by
      cases w with
      | nil => exact absurd hw (by simp [validIdent])
      | cons a b => exact ⟨a, b, rfl⟩
    rw [validIdent, Bool.and_eq_true] at hw
    cases r with
    | nil =>
      refine ⟨[], ?_, ?_⟩
      · rw [List.append_nil] at hr1
        rw [hr1, List.append_nil]
      · rw [List.nil_append] at hr2
        rw [List.nil_append, hr2]
    | cons r0 r2 =>
      exfalso
      have hr0 : r0 = '\x7b' := by
        rw [phL, List.cons_append, List.cons_append, List.cons_append] at hr2
        injection hr2 with h1 _
        exact h1.symm
      subst hr0
      rcases p with _ | ⟨p0, _ | ⟨p1, p2⟩⟩
      · exact hp rfl
      · -- p = [p0]: the match would have to start one character inside
        -- the occurrence of the placeholder, on its second brace.
        simp only [phL, List.cons_append, List.nil_append] at hr1 hr2
        injection hr1 with h1 hr1
        injection hr1 with h2 hr1
        -- hr1 : w0 :: (ws ++ [...]) = r2
        injection hr2 with h3 hr2
        rw [← hr1, List.cons_append] at hr2
        injection hr2 with h5 _
        rw [← h5] at hw
        exact absurd hw.1 (by decide)
      · -- p has at least two characters: the opening brace of the
        -- occurrence would have to sit inside the identifier or closing
        -- braces of the match.
        simp only [phL, List.cons_append, List.nil_append] at hr1
        injection hr1 with h1 hr1
        injection hr1 with h2 hr1
        -- hr1 : w0 :: (ws ++ [...]) = p2 ++ '\x7b' :: r2
        refine identChar_ne_obrace w0 ws hw.1 hw.2 ?_
        rw [hr1]
        exact List.mem_append_right p2 (List.mem_cons_self _ _)
  · exact ⟨p2, hp2, ht⟩

lemma scanGo_sound (f : Nat) : ∀ (l v : List Char),
    l.length ≤ f → v ∈ scanGo f l →
    validIdent v = true ∧ ∃ p q, l = p ++ (phL v ++ q) := by
  induction f with
  | zero => intro l v _ hv; simp [scanGo] at hv
  | succ f ih =>
    intro l v hlen hv
    rcases hm : matchAt l with _ | ⟨w, tail⟩
    · cases l with
      | nil => simp [scanGo, hm] at hv
      | cons c rest =>
        simp only [scanGo, hm] at hv
        obtain ⟨hvi, p, q, hpq⟩ := ih rest v (by simp at hlen; omega) hv
        exact ⟨hvi, c :: p, q, by rw [hpq]; rfl⟩
    · simp only [scanGo, hm] at hv
      obtain ⟨hw, hshape⟩ := matchAt_some_shape l w tail hm
      rcases List.mem_cons.mp hv with hv | hv
      · subst hv
        exact ⟨hw, [], tail, by rw [hshape]; rfl⟩
      · have hlt : tail.length < l.length := by
          rw [hshape]; simp [phL]; omega
        obtain ⟨hvi, p, q, hpq⟩ := ih tail v (by omega) hv
        refine ⟨hvi, phL w ++ p, q, ?_⟩
        rw [hshape, hpq, List.append_assoc]

lemma scanGo_complete (f : Nat) : ∀ (l p v q : List Char),
    l.length ≤ f → validIdent v = true → l = p ++ (phL v ++ q) →
    v ∈ scanGo f l := by
  induction f with
  | zero =>
    intro l p v q hlen hv hl
    exfalso
    rw [hl] at hlen
    simp [phL, List.length_append] at hlen
  | succ f ih =>
    intro l p v q hlen hv hl
    rcases hm : matchAt l with _ | ⟨w, tail⟩
    · cases p with
      | nil =>
        rw [List.nil_append] at hl
        rw [hl, matchAt_phL v q hv] at hm
        exact absurd hm (by simp)
      | cons c p2 =>
        subst hl
        simp only [List.cons_append] at hm hlen ⊢
        simp only [scanGo, hm]
        refine ih (p2 ++ (phL v ++ q)) p2 v q ?_ hv rfl
        simp only [List.length_cons] at hlen
        omega
    · obtain ⟨hw, hshape⟩ := matchAt_some_shape l w tail hm
      cases p with
      | nil =>
        rw [List.nil_append] at hl
        have h2 : matchAt l = some (v, q) := by
          rw [hl]; exact matchAt_phL v q hv
        rw [hm] at h2
        injection h2 with h2
        cases h2
        simp only [scanGo, hm]
        exact List.mem_cons_self _ _
      | cons c p2 =>
        obtain ⟨p3, hp3, ht⟩ :=
          matchAt_occurrence_after l w tail (c :: p2) v q hm hv hl (by simp)
        have hlt : tail.length < l.length := by
          rw [hshape]; simp [phL]; omega
        simp only [scanGo, hm]
        exact List.mem_cons_of_mem _ (ih tail p3 v q (by omega) hv ht)

/-- The scan finds exactly the valid identifiers occurring in the text as
two-brace-delimited placeholders. -/
lemma mem_scanVars_iff (l v : List Char) :
    v ∈ scanVars l ↔ validIdent v = true ∧ ∃ p q, l = p ++ (phL v ++ q) := by
  constructor
  · exact scanGo_sound l.length l v le_rfl
  · rintro ⟨hv, p, q, hl⟩
    exact scanGo_complete l.length l p v q le_rfl hv hl

/-! ### The computed order is the standard lexicographic order -/

lemma lexLe_iff_lex (a b : List Char) :
    lexLe a b = true ↔ a = b ∨ List.Lex (· < ·) a b := by
  induction a generalizing b with
  | nil =>
    cases b with
    | nil => simp [lexLe]
    | cons y ys =>
      simp only [lexLe, true_iff]
      exact Or.inr List.Lex.nil
  | cons x xs ih =>
    cases b with
    | nil =>
      rw [lexLe]
      constructor
      · intro h
        exact absurd h (by simp)
      · intro h
        rcases h with h | h
        · exact absurd h (by simp)
        · cases h
    | cons y ys =>
      rw [lexLe]
      rcases lt_trichotomy x y with h | h | h
      · simp only [if_pos h, true_iff]
        exact Or.inr (List.Lex.rel h)
      · subst h
        simp only [if_neg (lt_irrefl x), if_pos rfl]
        constructor
        · intro hx
          rcases (ih ys).mp hx with h2 | h2
          · exact Or.inl (by rw [h2])
          · exact Or.inr (List.Lex.cons h2)
        · intro hx
          rcases hx with h2 | h2
          · injection h2 with _ h3
            exact (ih ys).mpr (Or.inl h3)
          · cases h2 with
            | cons h3 => exact (ih ys).mpr (Or.inr h3)
            | rel h3 => exact absurd h3 (lt_irrefl x)
      · simp only [if_neg (lt_asymm h), if_neg ((ne_of_lt h).symm)]
        constructor
        · intro habs
          exact absurd habs (by simp)
        · intro hx
          rcases hx with h2 | h2
          · injection h2 with h3 _
            exact absurd h3 ((ne_of_lt h).symm)
          · cases h2 with
            | cons h3 => exact absurd h (lt_irrefl x)
            | rel h3 => exact absurd h3 (lt_asymm h)

lemma strLe_iff_lex (a b : String) :
    strLe a b = true ↔ a = b ∨ List.Lex (· < ·) a.data b.data := by
  rw [strLe, lexLe_iff_lex]
  constructor
  · rintro (h | h)
    · exact Or.inl (by cases a; cases b; exact congrArg String.mk h)
    · exact Or.inr h
  · rintro (h | h)
    · exact Or.inl (congrArg String.data h)
    · exact Or.inr h

lemma sortedStrings_sorted (s : Finset String) :
    (sortedStrings s).Sorted
      (fun a b => a = b ∨ List.Lex (· < ·) a.data b.data) := by
  have key : ∀ (l : List String), (sortStrings l).Sorted
      (fun a b => a = b ∨ List.Lex (· < ·) a.data b.data) :=
    fun l => (sorted_sortStrings l).imp (fun h => (strLe_iff_lex _ _).mp h)
  rcases s with ⟨m, hnd⟩
  obtain ⟨l⟩ := m
  exact key l

lemma mem_sortedStrings (s : Finset String) (x : String) :
    x ∈ sortedStrings s ↔ x ∈ s := by
  rcases s with ⟨m, hnd⟩
  obtain ⟨l⟩ := m
  rw [show sortedStrings ⟨Quot.mk _ l, hnd⟩ = sortStrings l from rfl]
  rw [(perm_sortStrings l).mem_iff]
  exact Iff.rfl

/-! ### Claim theorems -/

/-- C1: `expand_matrix` emits jobs in cartesian-product order with the
last-listed variable varying fastest — the first-listed variable is the
outermost loop (the general recursion), so for variables `[A, B]` the order
is all values of `B` for the first value of `A`, then all values of `B` for
the second value of `A`, and so on; the spec's concrete matrix expands to
exactly the four jobs in that order; and every emitted job binds exactly
the variable names of the matrix in declared insertion order. -/
theorem expand_matrix_order_c1 (A B : String) (as bs : List String)
    (m : List (String × List String)) (job : List (String × String))
    (hjob : job ∈ expand_matrix m) :
    (∀ (k : String) (vs : List String) (rest : List (String × List String)),
      expand_matrix ((k, vs) :: rest) =
        vs.flatMap (fun a => (expand_matrix rest).map (fun j => (k, a) :: j))) ∧
    expand_matrix [(A, as), (B, bs)] =
      as.flatMap (fun a => bs.map (fun b => [(A, a), (B, b)])) ∧
    expand_matrix [("algorithm", ["pc", "ges"]), ("dataset", ["asia", "cancer"])] =
      [[("algorithm", "pc"), ("dataset", "asia")],
       [("algorithm", "pc"), ("dataset", "cancer")],
       [("algorithm", "ges"), ("dataset", "asia")],
       [("algorithm", "ges"), ("dataset", "cancer")]] ∧
    job.map Prod.fst = m.map Prod.fst := by
  refine ⟨?_, ?_, by decide, ?_⟩
  · intro k vs rest
    by_cases hr : rest.isEmpty
    · rw [List.isEmpty_iff] at hr
      subst hr
      simp [expand_matrix, productL, List.map_flatMap, flatMap_pure_map]
    · rw [expand_matrix, expand_matrix, if_neg (by simp), if_neg hr]
      simp only [List.map_cons, productL, List.map_flatMap, List.map_map]
      rfl
  · rw [expand_matrix]
    simp only [productL, List.map_flatMap, List.map_map, List.map_cons,
      List.map_nil, flatMap_pure_map]
    rfl
  · rw [expand_matrix] at hjob
    split at hjob
    · rename_i hm
      rw [List.mem_singleton] at hjob
      rw [List.isEmpty_iff] at hm
      simp [hjob, hm]
    · rw [List.mem_map] at hjob
      obtain ⟨c, hc, rfl⟩ := hjob
      have hlen := length_of_mem_productL _ c hc
      rw [List.length_map] at hlen
      rw [List.map_fst_zip]
      simp [hlen]

/-- C1 witness: the order theorem instantiated at concrete inputs. -/
theorem expand_matrix_order_c1_witness :
    [("a", "1")] ∈ expand_matrix [("a", ["1"])] ∧
    ((∀ (k : String) (vs : List String) (rest : List (String × List String)),
      expand_matrix ((k, vs) :: rest) =
        vs.flatMap (fun a => (expand_matrix rest).map (fun j => (k, a) :: j))) ∧
    expand_matrix [("x", ["u"]), ("y", ["v"])] =
      ["u"].flatMap (fun a => ["v"].map (fun b => [("x", a), ("y", b)])) ∧
    expand_matrix [("algorithm", ["pc", "ges"]), ("dataset", ["asia", "cancer"])] =
      [[("algorithm", "pc"), ("dataset", "asia")],
       [("algorithm", "pc"), ("dataset", "cancer")],
       [("algorithm", "ges"), ("dataset", "asia")],
       [("algorithm", "ges"), ("dataset", "cancer")]] ∧
    [("a", "1")].map Prod.fst = [("a", ["1"])].map Prod.fst) :=
  ⟨by decide, expand_matrix_order_c1 "x" "y" ["u"] ["v"] [("a", ["1"])] [("a", "1")] (by decide)⟩

/-- C2: for a non-empty matrix the number of emitted jobs is the product of
the value-list lengths, and the empty matrix expands to the single empty
job. -/
theorem expand_matrix_card_c2 {α : Type} (matrix : List (String × List α))
    (hne : matrix ≠ []) :
    (expand_matrix matrix).length = (matrix.map (fun p => p.2.length)).prod ∧
    expand_matrix ([] : List (String × List α)) = [[]] := by
  refine ⟨?_, rfl⟩
  rw [expand_matrix, if_neg (by simpa [List.isEmpty_iff] using hne)]
  rw [List.length_map, productL_length]
  simp [List.map_map, Function.comp_def]

/-- C2 witness: a 3 by 2 matrix yields 6 jobs. -/
theorem expand_matrix_card_c2_witness :
    [("a", [1, 2, 3]), ("b", [4, 5])] ≠ ([] : List (String × List Nat)) ∧
    ((expand_matrix [("a", [1, 2, 3]), ("b", [4, 5])]).length =
      ([("a", [1, 2, 3]), ("b", [4, 5])].map (fun p => p.2.length)).prod ∧
    expand_matrix ([] : List (String × List Nat)) = [[]]) :=
  ⟨by decide, expand_matrix_card_c2 [("a", [1, 2, 3]), ("b", [4, 5])] (by decide)⟩

/-- C8: `expand_matrix` is a pure function — repeated application to the
same input is identical — and (when every value list is non-empty) the first
emitted job pairs each variable, in declared order, with the first value of
its list. -/
theorem expand_matrix_deterministic_c8 {α : Type} [Inhabited α]
    (matrix : List (String × List α)) (h : ∀ p ∈ matrix, p.2 ≠ []) :
    expand_matrix matrix = expand_matrix matrix ∧
    (expand_matrix matrix).head? = some (matrix.map (fun p => (p.1, p.2.headI))) := by
  refine ⟨rfl, ?_⟩
  by_cases hm : matrix.isEmpty
  · rw [List.isEmpty_iff] at hm
    subst hm; rfl
  · rw [expand_matrix, if_neg hm]
    rw [List.head?_map, productL_head _ (by
      intro l hl
      rw [List.mem_map] at hl
      obtain ⟨p, hp, rfl⟩ := hl
      exact h p hp)]
    rw [Option.map_some']
    rw [List.map_map, ← List.zip_map']
    rfl

/-- C8 witness: the determinism theorem at the spec's concrete matrix. -/
theorem expand_matrix_deterministic_c8_witness :
    (∀ p ∈ [("algorithm", ["pc", "ges"]), ("dataset", ["asia", "cancer"])], p.2 ≠ []) ∧
    (expand_matrix [("algorithm", ["pc", "ges"]), ("dataset", ["asia", "cancer"])] =
      expand_matrix [("algorithm", ["pc", "ges"]), ("dataset", ["asia", "cancer"])] ∧
    (expand_matrix [("algorithm", ["pc", "ges"]), ("dataset", ["asia", "cancer"])]).head? =
      some ([("algorithm", ["pc", "ges"]), ("dataset", ["asia", "cancer"])].map
        (fun p => (p.1, p.2.headI)))) :=
  ⟨by decide, expand_matrix_deterministic_c8 _ (by decide)⟩

/-- C10: a non-empty matrix in which some variable has an empty value list
expands to the empty job list, without raising. -/
theorem expand_matrix_empty_axis_c10 {α : Type} (matrix : List (String × List α))
    (hne : matrix ≠ []) (p : String × List α) (hp : p ∈ matrix)
    (hempty : p.2 = []) : expand_matrix matrix = [] := by
  rw [expand_matrix, if_neg (by simpa [List.isEmpty_iff] using hne)]
  rw [productL_eq_nil_of_mem_nil]
  · rfl
  · rw [List.mem_map]
    exact ⟨p, hp, hempty⟩

/-- C10 witness: a two-variable matrix with one empty axis yields no jobs. -/
theorem expand_matrix_empty_axis_c10_witness :
    [("a", [1, 2]), ("b", [])] ≠ ([] : List (String × List Nat)) ∧
    ("b", ([] : List Nat)) ∈ [("a", [1, 2]), ("b", [])] ∧
    ("b", ([] : List Nat)).2 = [] ∧
    expand_matrix [("a", [1, 2]), ("b", ([] : List Nat))] = [] :=
  ⟨by decide, by decide, rfl,
    expand_matrix_empty_axis_c10 _ (by decide) ("b", []) (by decide) rfl⟩

/-- C7: when the internal product generation raises, `expand_matrix` raises
`WorkflowExecutionError` — the single failure type of this operation — whose
message carries the underlying cause's message; the computation is not
retried (the error is returned as the final result). -/
theorem expand_matrix_wraps_failure_c7 {α : Type} (matrix : List (String × List α))
    (hne : matrix ≠ [])
    (product : List (List α) → Except String (List (List α))) (e : String)
    (hp : product (matrix.map Prod.snd) = .error e) :
    expand_matrix_with product matrix =
      .error (.executionError ("Matrix expansion failed: " ++ e)) ∧
    ∃ pre, ("Matrix expansion failed: " ++ e) = pre ++ e := by
  constructor
  · rw [expand_matrix_with, if_neg (by simpa [List.isEmpty_iff] using hne), hp]
  · exact ⟨"Matrix expansion failed: ", rfl⟩

/-- C7 witness: a product generator that raises `boom` is wrapped. -/
theorem expand_matrix_wraps_failure_c7_witness :
    [("a", [1])] ≠ ([] : List (String × List Nat)) ∧
    (expand_matrix_with (fun _ => Except.error "boom") [("a", [(1 : Nat)])] =
      .error (.executionError ("Matrix expansion failed: " ++ "boom")) ∧
    ∃ pre, ("Matrix expansion failed: " ++ "boom") = pre ++ "boom") :=
  ⟨by decide, expand_matrix_wraps_failure_c7 [("a", [1])] (by decide) _ "boom" rfl⟩

/-- C6: a `WorkflowValidationError` raised by the loader or by the
structural-validation collaborator is wrapped by `parse_workflow` into a
`WorkflowExecutionError` whose message embeds the original message. -/
theorem parse_workflow_wraps_validation_error_c6 (msg : String)
    (validateResult : List (String × Doc) → Except String Unit)
    (wf : List (String × Doc)) :
    parse_workflow (.error msg) validateResult =
      .error (.executionError ("Workflow validation failed: " ++ msg)) ∧
    parse_workflow (.ok wf) (fun _ => .error msg) =
      .error (.executionError ("Workflow validation failed: " ++ msg)) ∧
    ∃ pre, ("Workflow validation failed: " ++ msg) = pre ++ msg :=
  ⟨rfl, rfl, "Workflow validation failed: ", rfl⟩

/-- C5: the source's `parse_workflow` performs no action-reference
validation: a workflow whose step `uses` an action name that no registry
could resolve is returned successfully (the embedded `parse_workflow` has no
registry collaborator at all — compare `workflow.py` lines 49-53, which call
only the loader, `validate_workflow` and `_validate_template_variables`).
This contradicts the claim (and the repository's own unit tests, which
require an `action_registry` attribute consulted during parsing). -/
theorem parse_workflow_no_action_validation_c5 :
    parse_workflow (.ok unknownActionWorkflow) (fun _ => .ok ()) =
      .ok unknownActionWorkflow := rfl

/-- C9: `TaskStatus` (modelled from the spec) is a closed enumeration of
exactly ten values; every value satisfies exactly one of
`is_success`/`is_error`; and the four predicates hold exactly on their
documented member sets. -/
theorem task_status_taxonomy_c9 :
    Fintype.card TaskStatus = 10 ∧
    (∀ s : TaskStatus, (is_success s = true ∧ is_error s = false) ∨
      (is_success s = false ∧ is_error s = true)) ∧
    (∀ s : TaskStatus, is_success s = true ↔
      s ∈ ([.EXECUTES, .WOULD_EXECUTE, .SKIPS, .WOULD_SKIP, .IDENTICAL,
            .DIFFERENT] : List TaskStatus)) ∧
    (∀ s : TaskStatus, is_error s = true ↔
      s ∈ ([.INVALID_USES, .INVALID_PARAMETER, .FAILED, .TIMED_OUT] :
        List TaskStatus)) ∧
    (∀ s : TaskStatus, is_execution s = true ↔
      s ∈ ([.EXECUTES, .IDENTICAL, .DIFFERENT] : List TaskStatus)) ∧
    (∀ s : TaskStatus, is_dry_run s = true ↔
      s ∈ ([.WOULD_EXECUTE, .WOULD_SKIP] : List TaskStatus)) := by
  refine ⟨by decide, by decide, by decide, by decide, by decide, by decide⟩

/-- C4: `extract` returns exactly the set of valid identifiers occurring in
the string as two-brace-delimited placeholders (a letter or underscore
followed by letters/digits/underscore/hyphen); any non-string input yields
the empty set; malformed delimiters are simply not matched (`extract` is a
total function, so it never raises); and the two concrete examples of the
spec hold. -/
theorem extract_template_variables_c4 :
    (∀ (s v : String),
      v ∈ extract_template_variables (.str s) ↔
        (validIdent v.data = true ∧ ∃ p q, s.data = p ++ (phL v.data ++ q))) ∧
    (∀ d : Doc, (∀ t, d ≠ .str t) → extract_template_variables d = ∅) ∧
    extract_template_variables (.str "\x7binvalid\x7d") = ∅ ∧
    extract_template_variables (.str "\x7b\x7ba\x7d\x7d\x7b\x7bb\x7d\x7d") =
      {"a", "b"} := by
  refine ⟨?_, ?_, by decide, by decide⟩
  · intro s v
    rw [extract_template_variables, List.mem_toFinset, List.mem_map]
    constructor
    · rintro ⟨w, hw, rfl⟩
      exact (mem_scanVars_iff s.data w).mp hw
    · intro h
      refine ⟨v.data, (mem_scanVars_iff s.data v.data).mpr h, ?_⟩
      cases v
      rfl
  · intro d hd
    cases d with
    | str t => exact absurd rfl (hd t)
    | num n => rfl
    | bool b => rfl
    | arr items => rfl
    | dict entries => rfl

/-- C4 witness: the characterisation applied to a concrete string, and the
empty result on a concrete non-string input. -/
theorem extract_template_variables_c4_witness :
    (("a" : String) ∈ extract_template_variables (.str "x\x7b\x7ba\x7d\x7dy") ↔
      (validIdent "a".data = true ∧
        ∃ p q, "x\x7b\x7ba\x7d\x7dy".data = p ++ (phL "a".data ++ q))) ∧
    extract_template_variables (.num 7) = ∅ :=
  ⟨extract_template_variables_c4.1 "x\x7b\x7ba\x7d\x7dy" "a",
   extract_template_variables_c4.2.1 (.num 7) (fun _ h => Doc.noConfusion h)⟩

/-- C3: template validation computes the available set as
`{id, description}` plus the matrix keys when a matrix is present, collects
the used placeholder variables, raises exactly when used minus available is
non-empty, and the raised message names the full ascending lexicographically
sorted lists of the unknown and of the available variables (`sortedStrings`
returns exactly the set's elements, sorted by the lexicographic code-point
order `List.Lex`); the spec's scenario workflow fails with unknown
`[unknown_var]` and available `[dataset, description, id]`. -/
theorem validate_template_variables_c3 (wf : List (String × Doc)) :
    (validate_template_variables wf = .ok () ↔
      used_variables wf ⊆ available_variables wf) ∧
    (∀ entries, lookupDoc "matrix" wf = some (.dict entries) →
      available_variables wf =
        {"id", "description"} ∪ (entries.map Prod.fst).toFinset) ∧
    (lookupDoc "matrix" wf = none →
      available_variables wf = {"id", "description"}) ∧
    (¬ used_variables wf ⊆ available_variables wf →
      validate_template_variables wf =
        .error (mkUnknownMessage
          (sortedStrings (used_variables wf \ available_variables wf))
          (sortedStrings (available_variables wf)))) ∧
    (∀ s : Finset String,
      (sortedStrings s).Sorted
        (fun a b => a = b ∨ List.Lex (· < ·) a.data b.data) ∧
      ∀ x, x ∈ sortedStrings s ↔ x ∈ s) ∧
    (used_variables scenarioWorkflow = {"unknown_var", "dataset"} ∧
      validate_template_variables scenarioWorkflow =
        .error (mkUnknownMessage ["unknown_var"]
          ["dataset", "description", "id"])) := by
  refine ⟨?_, ?_, ?_, ?_, ?_, by decide, by rfl⟩
  · simp only [validate_template_variables]
    by_cases h : used_variables wf \ available_variables wf = ∅
    · rw [if_pos h]
      exact iff_of_true rfl (Finset.sdiff_eq_empty_iff_subset.mp h)
    · rw [if_neg h]
      exact iff_of_false (by simp)
        (fun hs => h (Finset.sdiff_eq_empty_iff_subset.mpr hs))
  · intro entries he
    rw [available_variables, matrixKeys, he]
  · intro he
    rw [available_variables, matrixKeys, he]
    exact Finset.union_empty _
  · intro h
    simp only [validate_template_variables]
    rw [if_neg (fun he => h (Finset.sdiff_eq_empty_iff_subset.mp he))]
  · exact fun s => ⟨sortedStrings_sorted s, fun x => mem_sortedStrings s x⟩

/-- C3 witness: the validation theorem applied to the scenario workflow,
whose `matrix` entry is the concrete mapping `dataset : [asia]`. -/
theorem validate_template_variables_c3_witness :
    (validate_template_variables scenarioWorkflow = .ok () ↔
      used_variables scenarioWorkflow ⊆ available_variables scenarioWorkflow) ∧
    available_variables scenarioWorkflow =
      {"id", "description"} ∪
        ([("dataset", Doc.arr [Doc.str "asia"])].map Prod.fst).toFinset ∧
    validate_template_variables scenarioWorkflow =
      .error (mkUnknownMessage
        (sortedStrings
          (used_variables scenarioWorkflow \ available_variables scenarioWorkflow))
        (sortedStrings (available_variables scenarioWorkflow))) :=
  ⟨(validate_template_variables_c3 scenarioWorkflow).1,
   (validate_template_variables_c3 scenarioWorkflow).2.1 _ rfl,
   (validate_template_variables_c3 scenarioWorkflow).2.2.2.1 (by decide)⟩

end CIQ
